import Mathlib

/-!
Shallow embedding of the Gladsheim OSM-to-tile pipeline
(`src/osm_parser.rs`, `src/utils.rs`) and proofs about its claimed
properties.

Modelling conventions:
* `i64` identifiers (`NodeId`, `WayId`) become `Int`.
* `f64` coordinates become `ℚ` (every finite double is a rational);
  the transcendental tile math on the success path of
  `lat_lon_to_tile_coord` is not embedded, only its validation logic.
* `u32`/`u8` tile fields become `Nat`; the bit mask `1u32 << i` becomes
  `1 <<< i` on `Nat`.
* Rust `String` keys become `List Char`.
* `HashSet`s become lists with membership semantics, `HashMap`s become
  association lists; hashing (`DefaultHasher`) is an arbitrary function
  parameter, matching the spec's "stable within a single run" contract.
* panics (`unwrap` on `None`) are made explicit as a `panicked` result.
-/

abbrev NodeId := Int
abbrev WayId := Int

/-- `Loc` from `osm_parser.rs`: geodetic degrees. -/
structure Loc where
  lat : ℚ
  lon : ℚ
  deriving DecidableEq, Repr

/-- `Node` from `osm_parser.rs`. -/
structure Node where
  loc : Loc
  deriving DecidableEq, Repr

/-- `Way` from the crate's data model (`main.rs`). -/
structure Way where
  id : WayId
  name : Option String
  is_oneway : Bool
  nodes : List NodeId
  polyline : String
  deriving DecidableEq, Repr

/-- `Edge` from the crate's data model (`main.rs`); `from` and `to` are
Lean keywords, so the fields are `from'` and `to'`. -/
structure Edge where
  from' : NodeId
  to' : NodeId
  nodes : List NodeId
  is_oneway : Bool
  deriving DecidableEq, Repr

/-- `StatsParsing` from `osm_parser.rs`. -/
structure StatsParsing where
  num_highways : Nat
  num_drivable : Nat
  num_oneways : Nat
  num_nodes : Nat
  deriving DecidableEq, Repr

/-- `Map` from `osm_parser.rs`. -/
structure OsmMap where
  ways : List Way
  nodes : List (NodeId × Node)
  deriving DecidableEq, Repr

/-- `PbfReaderResult` from `osm_parser.rs`. -/
structure PbfReaderResult where
  stats : StatsParsing
  map : OsmMap
  deriving DecidableEq, Repr

/-- `Quadkey` (`utils.rs`): the character sequence of the quadkey string. -/
abbrev Quadkey := List Char

/-- `Tile` (`utils.rs`). -/
structure Tile where
  edges : List Edge
  deriving DecidableEq, Repr

/-- `Tile::default()`: an empty edge list. -/
instance : Inhabited Tile := ⟨⟨[]⟩⟩

/-- `TileCoord` (`utils.rs`); `x`, `y` are `u32`, `zoom` is `u8`. -/
structure TileCoord where
  x : Nat
  y : Nat
  zoom : Nat
  deriving DecidableEq, Repr

/-- `tile_coord_to_quadkey` (`utils.rs` lines 50-68): for
`i in (0..zoom).rev()`, push the decimal character of
`(x bit i) + 2 * (y bit i)`. -/
def tile_coord_to_quadkey (tile : TileCoord) : Quadkey :=
  (List.range tile.zoom).reverse.map (fun i =>
    let mask := 1 <<< i
    let digit := (if tile.x &&& mask ≠ 0 then 1 else 0) +
                 (if tile.y &&& mask ≠ 0 then 2 else 0)
    Char.ofNat (48 + digit))

/-- The validation dichotomy of `lat_lon_to_tile_coord`
(`utils.rs` lines 26-48).  The floating-point x/y computation on the
success path is transcendental and not embedded; the result carries only
whether the call fails with a range error or succeeds.  (The source
interpolates `lat` into the longitude message, faithfully kept.) -/
def lat_lon_to_tile_coord_checked (lat lon : ℚ) (zoom : Nat) :
    Except String Unit :=
  if lat < -85.05112878 ∨ lat > 85.05112878 then
    Except.error s!"Latitude {lat} out of valid range"
  else if lon < -180 ∨ lon > 180 then
    Except.error s!"Longitude {lat} out of valid range"
  else
    Except.ok ()

theorem quadkey_length (tile : TileCoord) :
    (tile_coord_to_quadkey tile).length = tile.zoom := by
  simp [tile_coord_to_quadkey]

theorem quadkey_get (tile : TileCoord) (i : Nat) (h : i < tile.zoom) :
    (tile_coord_to_quadkey tile).getD i ' ' =
      Char.ofNat (48 + ((tile.x / 2 ^ (tile.zoom - 1 - i)) % 2 +
        2 * ((tile.y / 2 ^ (tile.zoom - 1 - i)) % 2))) := by
  have hlen : i < (tile_coord_to_quadkey tile).length := by
    rw [quadkey_length]; exact h
  rw [List.getD_eq_getElem _ _ hlen]
  have hmask : ∀ x j : Nat, (if x &&& (1 <<< j) ≠ 0 then 1 else 0) =
      (x / 2 ^ j) % 2 := by
    intro x j
    rw [Nat.one_shiftLeft, Nat.and_two_pow]
    rcases hb : x.testBit j with _ | _
    · rw [Nat.testBit_to_div_mod] at hb
      simp at hb ⊢
      omega
    · rw [Nat.testBit_to_div_mod] at hb
      simp at hb ⊢
      omega
  have hmask2 : ∀ x j : Nat, (if x &&& (1 <<< j) ≠ 0 then 2 else 0) =
      2 * ((x / 2 ^ j) % 2) := by
    intro x j
    rw [← hmask x j]
    rcases Decidable.em (x &&& (1 <<< j) ≠ 0) with hc | hc <;> simp [hc]
  simp only [tile_coord_to_quadkey]
  rw [List.getElem_map, List.getElem_reverse, List.getElem_range]
  simp only [List.length_reverse, List.length_range] at *
  rw [hmask, hmask2]

/-- C6: for every `TileCoord (x, y, zoom)`, `tile_coord_to_quadkey`
returns a string of length `zoom` whose `i`-th character (most
significant bit first) is the decimal digit
`(bit of x) + 2 * (bit of y)` at bit position `zoom - 1 - i`, each digit
in range 0-3. -/
theorem quadkey_encoding_correct (tile : TileCoord) (i : Nat)
    (h : i < tile.zoom) :
    (tile_coord_to_quadkey tile).length = tile.zoom ∧
    (tile_coord_to_quadkey tile).getD i ' ' =
      Char.ofNat (48 + ((tile.x / 2 ^ (tile.zoom - 1 - i)) % 2 +
        2 * ((tile.y / 2 ^ (tile.zoom - 1 - i)) % 2))) ∧
    (tile.x / 2 ^ (tile.zoom - 1 - i)) % 2 +
        2 * ((tile.y / 2 ^ (tile.zoom - 1 - i)) % 2) ≤ 3 :=
  ⟨quadkey_length tile, quadkey_get tile i h, by omega⟩

/-- Witness for `quadkey_encoding_correct` at `x = 5`, `y = 3`,
`zoom = 3`, `i = 2`. -/
theorem quadkey_encoding_correct_witness :
    (2 : Nat) < 3 ∧
    ((tile_coord_to_quadkey ⟨5, 3, 3⟩).length = 3 ∧
     (tile_coord_to_quadkey ⟨5, 3, 3⟩).getD 2 ' ' =
       Char.ofNat (48 + (5 / 2 ^ (3 - 1 - 2) % 2 + 2 * (3 / 2 ^ (3 - 1 - 2) % 2))) ∧
     5 / 2 ^ (3 - 1 - 2) % 2 + 2 * (3 / 2 ^ (3 - 1 - 2) % 2) ≤ 3) :=
  ⟨by decide, quadkey_encoding_correct ⟨5, 3, 3⟩ 2 (by decide)⟩

/-- C8: `lat_lon_to_tile_coord` returns a range error exactly when `lat`
is outside `[-85.05112878, 85.05112878]` or `lon` is outside
`[-180, 180]`; in particular `lat = 85.0511287` succeeds, `lat = 85.1`
fails, and `lon = 180.1` fails. -/
theorem lat_lon_range_check_correct :
    (∀ (lat lon : ℚ) (zoom : Nat),
      (∃ e, lat_lon_to_tile_coord_checked lat lon zoom = Except.error e) ↔
        (lat < -85.05112878 ∨ lat > 85.05112878 ∨ lon < -180 ∨ lon > 180)) ∧
    lat_lon_to_tile_coord_checked 85.0511287 0 7 = Except.ok () ∧
    (∃ e, lat_lon_to_tile_coord_checked 85.1 0 7 = Except.error e) ∧
    (∃ e, lat_lon_to_tile_coord_checked 0 180.1 7 = Except.error e) := by
  refine ⟨?_, ?_, ?_, ?_⟩
  · intro lat lon zoom
    constructor
    · rintro ⟨e, he⟩
      by_contra hcon
      push_neg at hcon
      obtain ⟨h1, h2, h3, h4⟩ := hcon
      have hc1 : ¬(lat < -85.05112878 ∨ lat > 85.05112878) := by
        push_neg
        exact ⟨h1, h2⟩
      have hc2 : ¬(lon < -180 ∨ lon > 180) := by
        push_neg
        exact ⟨h3, h4⟩
      simp [lat_lon_to_tile_coord_checked, hc1, hc2] at he
    · intro hcon
      rcases Decidable.em (lat < -85.05112878 ∨ lat > 85.05112878) with hc | hc
      · refine ⟨s!"Latitude {lat} out of valid range", ?_⟩
        unfold lat_lon_to_tile_coord_checked
        rw [if_pos hc]
      · have hc2 : lon < -180 ∨ lon > 180 := by tauto
        refine ⟨s!"Longitude {lat} out of valid range", ?_⟩
        unfold lat_lon_to_tile_coord_checked
        rw [if_neg hc, if_pos hc2]
  · norm_num [lat_lon_to_tile_coord_checked]
  · refine ⟨s!"Latitude {(85.1 : ℚ)} out of valid range", ?_⟩
    unfold lat_lon_to_tile_coord_checked
    rw [if_pos (by norm_num)]
  · refine ⟨s!"Longitude {(0 : ℚ)} out of valid range", ?_⟩
    unfold lat_lon_to_tile_coord_checked
    rw [if_neg (by norm_num), if_pos (by norm_num)]

/-- An OSM way element as exposed by the element source: id, tag
key/value pairs in iteration order, and ordered node references. -/
structure OsmWayElement where
  id : Int
  tags : List (String × String)
  refs : List Int
  deriving DecidableEq, Repr

/-- The `highway` value arms of the tag match in `parse_way`
(`osm_parser.rs` lines 317-369): the main and link tags set
`is_drivable = true`; the special road types and the catch-all leave it
unchanged (`false` here means "no-op arm"). -/
def highwayIsDrivable (value : String) : Bool :=
  match value with
  | "motorway" => true
  | "trunk" => true
  | "primary" => true
  | "secondary" => true
  | "tertiary" => true
  | "unclassified" => true
  | "residential" => true
  | "motorway_link" => true
  | "trunk_link" => true
  | "primary_link" => true
  | "secondary_link" => true
  | "tertiary_link" => true
  | "living_street" => false
  | "service" => false
  | "pedestrian" => false
  | "track" => false
  | "bus_guideway" => false
  | "escape" => false
  | "raceway" => false
  | "road" => false
  | "busway" => false
  | _ => false

/-- The mutable state of the tag loop in `parse_way`. -/
structure WayTagState where
  is_drivable : Bool
  name : Option String
  is_oneway : Bool
  deriving DecidableEq, Repr

/-- One iteration of the tag loop in `parse_way`
(`osm_parser.rs` lines 314-383). -/
def wayTagStep (st : WayTagState) (kv : String × String) : WayTagState :=
  match kv.1 with
  | "highway" =>
      if highwayIsDrivable kv.2 then { st with is_drivable := true } else st
  | "name" => { st with name := some kv.2 }
  | "oneway" => if kv.2 = "yes" then { st with is_oneway := true } else st
  | _ => st

/-- `parse_way` (`osm_parser.rs` lines 310-415). -/
def parse_way (way : OsmWayElement) : PbfReaderResult :=
  let st := way.tags.foldl wayTagStep ⟨false, none, false⟩
  let ways : List Way :=
    if st.is_drivable then
      [{ id := way.id, name := st.name, is_oneway := st.is_oneway,
         nodes := way.refs, polyline := "" }]
    else []
  { stats :=
      { num_highways := 1,
        num_drivable := if st.is_drivable then 1 else 0,
        num_oneways := if st.is_oneway then 1 else 0,
        num_nodes := 0 },
    map := { ways := ways, nodes := [] } }

/-- The drivable set as the spec lists it: motorway, trunk, primary,
secondary, tertiary, unclassified, residential, and their `_link`
variants. -/
def drivableHighwayValues : List String :=
  ["motorway", "trunk", "primary", "secondary", "tertiary", "unclassified",
   "residential", "motorway_link", "trunk_link", "primary_link",
   "secondary_link", "tertiary_link"]

theorem highwayIsDrivable_iff_mem (v : String) :
    highwayIsDrivable v = true ↔ v ∈ drivableHighwayValues := by
  constructor
  · intro h
    unfold highwayIsDrivable at h
    split at h <;> simp_all [drivableHighwayValues]
  · intro h
    simp only [drivableHighwayValues, List.mem_cons, List.not_mem_nil,
      or_false] at h
    rcases h with rfl | rfl | rfl | rfl | rfl | rfl | rfl | rfl | rfl | rfl |
      rfl | rfl <;> rfl

theorem wayTagStep_is_drivable (st : WayTagState) (kv : String × String) :
    (wayTagStep st kv).is_drivable =
      (st.is_drivable || (kv.1 == "highway" && highwayIsDrivable kv.2)) := by
  rcases kv with ⟨k, v⟩
  unfold wayTagStep
  split
  · rename_i heq
    simp only at heq
    subst heq
    by_cases hv : highwayIsDrivable v <;> simp [hv]
  · rename_i heq
    simp only at heq
    subst heq
    simp
  · rename_i heq
    simp only at heq
    subst heq
    by_cases hv : v = "yes" <;> simp [hv]
  · rename_i hne1 hne2 hne3
    simp only at hne1 hne2 hne3
    have : (k == "highway") = false := by
      simp only [beq_eq_false_iff_ne, ne_eq]
      exact hne1
    simp [this]

theorem wayTagFold_is_drivable (l : List (String × String))
    (st : WayTagState) :
    (l.foldl wayTagStep st).is_drivable =
      (st.is_drivable ||
        l.any (fun kv => kv.1 == "highway" && highwayIsDrivable kv.2)) := by
  induction l generalizing st with
  | nil => simp
  | cons kv rest ih =>
    rw [List.foldl_cons, List.any_cons, ih, wayTagStep_is_drivable]
    rw [Bool.or_assoc]

/-- C10: `parse_way` produces a `Way` record if and only if the element
carries a `highway` tag whose value is in the drivable set; the
recognized non-drivable values and unknown values yield an empty
contribution without failure. -/
theorem parse_way_drivable_iff (way : OsmWayElement) :
    (parse_way way).map.ways ≠ [] ↔
      ∃ kv ∈ way.tags, kv.1 = "highway" ∧ kv.2 ∈ drivableHighwayValues := by
  have h := wayTagFold_is_drivable way.tags ⟨false, none, false⟩
  rw [show (WayTagState.mk false none false).is_drivable = false from rfl,
    Bool.false_or] at h
  have hany :
      (way.tags.any fun kv => kv.1 == "highway" && highwayIsDrivable kv.2) =
        true ↔
      ∃ kv ∈ way.tags, kv.1 = "highway" ∧ kv.2 ∈ drivableHighwayValues := by
    rw [List.any_eq_true]
    constructor
    · rintro ⟨kv, hmem, hkv⟩
      rw [Bool.and_eq_true, beq_iff_eq] at hkv
      exact ⟨kv, hmem, hkv.1, (highwayIsDrivable_iff_mem kv.2).1 hkv.2⟩
    · rintro ⟨kv, hmem, hk, hv⟩
      refine ⟨kv, hmem, ?_⟩
      rw [Bool.and_eq_true, beq_iff_eq]
      exact ⟨hk, (highwayIsDrivable_iff_mem kv.2).2 hv⟩
  rw [← hany, ← h]
  unfold parse_way
  by_cases hdriv : (way.tags.foldl wayTagStep ⟨false, none, false⟩).is_drivable
  · simp [hdriv]
  · simp [hdriv]

/-- Witness for `parse_way_drivable_iff`: a residential way is kept, and
its witness tag is exhibited. -/
theorem parse_way_drivable_iff_witness :
    (parse_way ⟨44, [("highway", "residential"), ("oneway", "yes")], [1, 2]⟩).map.ways ≠ [] :=
  (parse_way_drivable_iff ⟨44, [("highway", "residential"), ("oneway", "yes")], [1, 2]⟩).2
    ⟨("highway", "residential"), by decide, by decide, by decide⟩

/-- The raw data of an `osmpbf::elements::Node` element as exposed by
the element source: id and true geodetic coordinates. -/
structure OsmNodeElement where
  id : Int
  lat : ℚ
  lon : ℚ
  deriving DecidableEq, Repr

/-- The raw data of an `osmpbf::dense::DenseNode` element. -/
structure DenseNodeElement where
  id : Int
  lat : ℚ
  lon : ℚ
  deriving DecidableEq, Repr

/-- The `SimpleNode` trait (`osm_parser.rs` lines 67-73). -/
class SimpleNode (α : Type) where
  lat : α → ℚ
  lon : α → ℚ
  id : α → Int

/-- `impl SimpleNode for osmpbf::elements::Node`
(`osm_parser.rs` lines 91-107): the `lon` accessor returns
`self.lat()`. -/
instance instSimpleNodeOsmNode : SimpleNode OsmNodeElement where
  lat n := n.lat
  lon n := n.lat
  id n := n.id

/-- `impl SimpleNode for osmpbf::dense::DenseNode`
(`osm_parser.rs` lines 74-90). -/
instance instSimpleNodeDenseNode : SimpleNode DenseNodeElement where
  lat n := n.lat
  lon n := n.lon
  id n := n.id

/-- `parse_node` (`osm_parser.rs` lines 417-451). -/
def parse_node {T : Type} [SimpleNode T] (node : T)
    (nodes_of_interest : List NodeId) : PbfReaderResult :=
  let node_id := SimpleNode.id node
  let nodes : List (NodeId × Node) :=
    if node_id ∈ nodes_of_interest then
      [(node_id, { loc := { lat := SimpleNode.lat node,
                            lon := SimpleNode.lon node } })]
    else []
  { map := { ways := [], nodes := nodes },
    stats := { num_highways := 0, num_drivable := 0, num_oneways := 0,
               num_nodes := 1 } }

/-- C3: for every kept non-dense `Node` element, the stored `Loc` has
its `lon` field equal to the element's latitude (the `SimpleNode` `lon`
accessor returns `lat`), whereas for kept `DenseNode` elements `lon`
equals the element's longitude. -/
theorem simple_node_lon_is_lat (n : OsmNodeElement) (d : DenseNodeElement)
    (s : List NodeId) (hn : n.id ∈ s) (hd : d.id ∈ s) :
    (parse_node n s).map.nodes = [(n.id, ⟨⟨n.lat, n.lat⟩⟩)] ∧
    (parse_node d s).map.nodes = [(d.id, ⟨⟨d.lat, d.lon⟩⟩)] := by
  constructor
  · show (if n.id ∈ s then _ else []) = _
    rw [if_pos hn]
    rfl
  · show (if d.id ∈ s then _ else []) = _
    rw [if_pos hd]
    rfl

/-- Witness for `simple_node_lon_is_lat` at concrete node elements. -/
theorem simple_node_lon_is_lat_witness :
    ((10 : Int) ∈ [(10 : Int), 11] ∧ (11 : Int) ∈ [(10 : Int), 11]) ∧
    ((parse_node (OsmNodeElement.mk 10 1 2) [10, 11]).map.nodes =
       [(10, ⟨⟨1, 1⟩⟩)] ∧
     (parse_node (DenseNodeElement.mk 11 3 4) [10, 11]).map.nodes =
       [(11, ⟨⟨3, 4⟩⟩)]) :=
  ⟨⟨by decide, by decide⟩,
   simple_node_lon_is_lat ⟨10, 1, 2⟩ ⟨11, 3, 4⟩ [10, 11] (by decide) (by decide)⟩

/-- One iteration of the intersection scan in `read_osm_pbf`
(`osm_parser.rs` lines 192-198): the state is
`(seen_nodes, intersection_nodes)`. -/
def interStep (st : List NodeId × List NodeId) (node_id : NodeId) :
    List NodeId × List NodeId :=
  if node_id ∈ st.1 then (st.1, st.2.insert node_id)
  else (node_id :: st.1, st.2)

/-- The intersection pass of `read_osm_pbf`
(`osm_parser.rs` lines 188-199): fold over every node id of every kept
way, in order. -/
def findIntersections (ways : List Way) : List NodeId :=
  ((ways.flatMap (fun way => way.nodes)).foldl interStep ([], [])).2

theorem interFold_fst (l : List NodeId) (st : List NodeId × List NodeId)
    (n : NodeId) :
    n ∈ (l.foldl interStep st).1 ↔ n ∈ st.1 ∨ 0 < l.count n := by
  induction l generalizing st with
  | nil => simp
  | cons a rest ih =>
    rw [List.foldl_cons]
    by_cases hn : n = a
    · subst hn
      rcases Decidable.em (n ∈ st.1) with ha | ha
      · rw [show interStep st n = (st.1, st.2.insert n) by
          simp [interStep, ha]]
        rw [ih]
        simp [ha, List.count_cons_self]
      · rw [show interStep st n = (n :: st.1, st.2) by
          simp [interStep, ha]]
        rw [ih]
        simp [List.count_cons_self]
    · have hne : (a == n) = false := by
        simp only [beq_eq_false_iff_ne, ne_eq]
        intro h
        exact hn h.symm
      have hcnt : (a :: rest).count n = rest.count n := by
        rw [List.count_cons, hne]
        simp
      rcases Decidable.em (a ∈ st.1) with ha | ha
      · rw [show interStep st a = (st.1, st.2.insert a) by
          simp [interStep, ha]]
        rw [ih, hcnt]
      · rw [show interStep st a = (a :: st.1, st.2) by
          simp [interStep, ha]]
        rw [ih, hcnt]
        simp [List.mem_cons, hn]

theorem interFold_snd (l : List NodeId) (st : List NodeId × List NodeId)
    (n : NodeId) :
    n ∈ (l.foldl interStep st).2 ↔
      n ∈ st.2 ∨ (n ∈ st.1 ∧ 0 < l.count n) ∨ 2 ≤ l.count n := by
  induction l generalizing st with
  | nil => simp
  | cons a rest ih =>
    rw [List.foldl_cons]
    by_cases hn : n = a
    · subst hn
      rcases Decidable.em (n ∈ st.1) with ha | ha
      · rw [show interStep st n = (st.1, st.2.insert n) by
          simp [interStep, ha]]
        rw [ih]
        simp [ha, List.mem_insert_iff, List.count_cons_self]
      · rw [show interStep st n = (n :: st.1, st.2) by
          simp [interStep, ha]]
        rw [ih]
        rw [List.count_cons_self]
        constructor
        · rintro (h | ⟨hm, hcnt⟩ | h)
          · exact Or.inl h
          · exact Or.inr (Or.inr (by omega))
          · exact Or.inr (Or.inr (by omega))
        · rintro (h | ⟨hm, hcnt⟩ | h)
          · exact Or.inl h
          · exact absurd hm ha
          · exact Or.inr (Or.inl ⟨List.mem_cons_self n st.1, by omega⟩)
    · have hne : (a == n) = false := by
        simp only [beq_eq_false_iff_ne, ne_eq]
        intro h
        exact hn h.symm
      have hcnt : (a :: rest).count n = rest.count n := by
        rw [List.count_cons, hne]
        simp
      rcases Decidable.em (a ∈ st.1) with ha | ha
      · rw [show interStep st a = (st.1, st.2.insert a) by
          simp [interStep, ha]]
        rw [ih, hcnt]
        simp [List.mem_insert_iff, hn]
      · rw [show interStep st a = (a :: st.1, st.2) by
          simp [interStep, ha]]
        rw [ih, hcnt]
        simp [List.mem_cons, hn]

/-- C5: the intersection set computed from the kept ways contains
exactly the node ids referenced more than once in total across all ways'
node sequences; for ways `A = [1,2,3]` and `B = [3,4,5]`, node 3 is the
only intersection. -/
theorem intersection_set_correct :
    (∀ (ways : List Way) (n : NodeId),
      n ∈ findIntersections ways ↔
        2 ≤ (ways.flatMap (fun way => way.nodes)).count n) ∧
    findIntersections [⟨1, none, false, [1, 2, 3], ""⟩,
                       ⟨2, none, false, [3, 4, 5], ""⟩] = [3] := by
  constructor
  · intro ways n
    unfold findIntersections
    rw [interFold_snd]
    simp
  · rfl

/-- The edge-splitting loop of `read_osm_pbf`
(`osm_parser.rs` lines 215-243), walking the enumerated node indices of
one way.  `initial` is `initial_node_index_on_edge`; the slice
`way.nodes[initial..node_index]` becomes `drop`/`take`; an edge with an
empty node slice is logged and dropped, and the cut boundary advances
either way. -/
def splitGo (is_oneway : Bool) (intersection_nodes : List NodeId)
    (nodes : List NodeId) : List Nat → Nat → List Edge
  | [], _ => []
  | node_index :: rest, initial =>
    if node_index = 0 then
      splitGo is_oneway intersection_nodes nodes rest initial
    else if nodes.getD node_index 0 ∈ intersection_nodes then
      let f := nodes.getD initial 0
      let t := nodes.getD node_index 0
      let es := (nodes.drop initial).take (node_index - initial)
      (if es.isEmpty then [] else [⟨f, t, es, is_oneway⟩]) ++
        splitGo is_oneway intersection_nodes nodes rest node_index
    else
      splitGo is_oneway intersection_nodes nodes rest initial

/-- Splitting one way into edges: the `flat_map` body of
`read_osm_pbf` applied to `way`, with the given intersection set. -/
def splitWay (intersection_nodes : List NodeId) (way : Way) : List Edge :=
  splitGo way.is_oneway intersection_nodes way.nodes
    (List.range way.nodes.length) 0

theorem splitGo_slice_ne_nil (nodes : List NodeId) (initial j : Nat)
    (hij : initial < j) (hj : j < nodes.length) :
    ((nodes.drop initial).take (j - initial)).isEmpty = false := by
  have hlen : ((nodes.drop initial).take (j - initial)).length =
      (j - initial) ⊓ (nodes.length - initial) := by
    rw [List.length_take, List.length_drop]
  have : 0 < ((nodes.drop initial).take (j - initial)).length := by
    rw [hlen]
    simp only [lt_min_iff]
    omega
  rcases hempty : ((nodes.drop initial).take (j - initial)).isEmpty with _ | _
  · rfl
  · rw [List.isEmpty_iff] at hempty
    rw [hempty] at this
    simp at this

theorem splitGo_length (ow : Bool) (inter nodes : List NodeId)
    (l : List Nat) (initial : Nat)
    (hlt : ∀ i ∈ l, initial < i ∧ i < nodes.length)
    (hsort : l.Pairwise (· < ·)) :
    (splitGo ow inter nodes l initial).length =
      (l.filter (fun i => decide (nodes.getD i 0 ∈ inter))).length := by
  induction l generalizing initial with
  | nil => rfl
  | cons j rest ih =>
    obtain ⟨hjinit, hjlen⟩ := hlt j (List.mem_cons_self j rest)
    have hj0 : j ≠ 0 := by omega
    have hrest_lt : ∀ i ∈ rest, j < i ∧ i < nodes.length := by
      intro i hi
      exact ⟨(List.pairwise_cons.mp hsort).1 i hi, (hlt i (List.mem_cons_of_mem j hi)).2⟩
    have hrest_sort : rest.Pairwise (· < ·) := (List.pairwise_cons.mp hsort).2
    unfold splitGo
    rw [if_neg hj0]
    by_cases hmem : nodes.getD j 0 ∈ inter
    · rw [if_pos hmem]
      have hne := splitGo_slice_ne_nil nodes initial j hjinit hjlen
      simp only [hne, Bool.false_eq_true, if_false, List.length_append,
        List.length_cons, List.length_nil]
      rw [ih j hrest_lt hrest_sort,
        List.filter_cons_of_pos (by simpa using hmem)]
      simp only [List.length_cons]
      omega
    · rw [if_neg hmem]
      have hrest_lt' : ∀ i ∈ rest, initial < i ∧ i < nodes.length := by
        intro i hi
        have := hrest_lt i hi
        omega
      rw [ih initial hrest_lt' hrest_sort]
      rw [List.filter_cons_of_neg (by simpa using hmem)]

theorem splitGo_shape (ow : Bool) (inter nodes : List NodeId)
    (l : List Nat) (initial : Nat)
    (hlt : ∀ i ∈ l, initial < i ∧ i < nodes.length)
    (hsort : l.Pairwise (· < ·)) (e : Edge)
    (he : e ∈ splitGo ow inter nodes l initial) :
    ∃ i j, i < j ∧ j < nodes.length ∧
      e.from' = nodes.getD i 0 ∧ e.to' = nodes.getD j 0 ∧
      e.nodes = (nodes.drop i).take (j - i) ∧ e.is_oneway = ow := by
  induction l generalizing initial with
  | nil => simp [splitGo] at he
  | cons j rest ih =>
    obtain ⟨hjinit, hjlen⟩ := hlt j (List.mem_cons_self j rest)
    have hj0 : j ≠ 0 := by omega
    have hrest_lt : ∀ i ∈ rest, j < i ∧ i < nodes.length := by
      intro i hi
      exact ⟨(List.pairwise_cons.mp hsort).1 i hi,
        (hlt i (List.mem_cons_of_mem j hi)).2⟩
    have hrest_sort : rest.Pairwise (· < ·) := (List.pairwise_cons.mp hsort).2
    unfold splitGo at he
    rw [if_neg hj0] at he
    by_cases hmem : nodes.getD j 0 ∈ inter
    · rw [if_pos hmem] at he
      have hne := splitGo_slice_ne_nil nodes initial j hjinit hjlen
      simp only [hne, Bool.false_eq_true, if_false, List.mem_append,
        List.mem_singleton] at he
      rcases he with he | he
      · subst he
        exact ⟨initial, j, hjinit, hjlen, rfl, rfl, rfl, rfl⟩
      · exact ih j hrest_lt hrest_sort he
    · rw [if_neg hmem] at he
      have hrest_lt' : ∀ i ∈ rest, initial < i ∧ i < nodes.length := by
        intro i hi
        have := hrest_lt i hi
        omega
      exact ih initial hrest_lt' hrest_sort he

theorem take_head_of_pos {α : Type} (k : Nat) (hk : 0 < k) (l : List α) :
    (l.take k).head? = l.head? := by
  cases l with
  | nil => simp
  | cons a t =>
    cases k with
    | zero => omega
    | succ m => rw [List.take_succ_cons]; rfl

theorem splitWay_range_lt (way : Way) :
    ∀ i ∈ (List.range way.nodes.length).drop 1,
      0 < i ∧ i < way.nodes.length := by
  intro i hi
  rcases hn : way.nodes.length with _ | n
  · rw [hn] at hi
    simp at hi
  · rw [hn, List.range_succ_eq_map] at hi
    simp only [List.drop_succ_cons, List.drop_zero, List.mem_map] at hi
    obtain ⟨k, hk, rfl⟩ := hi
    rw [List.mem_range] at hk
    omega

theorem splitWay_eq_go_tail (inter : List NodeId) (way : Way) :
    splitWay inter way =
      splitGo way.is_oneway inter way.nodes
        ((List.range way.nodes.length).drop 1) 0 := by
  unfold splitWay
  rcases hn : way.nodes.length with _ | n
  · rfl
  · rw [List.range_succ_eq_map]
    rw [show ((0 :: List.map Nat.succ (List.range n)).drop 1 =
      List.map Nat.succ (List.range n)) from rfl]
    conv_lhs => rw [splitGo]
    rw [if_pos rfl]

/-- C4: the splitter never cuts at a way's first index, emits exactly
one edge per subsequent index whose node is in the intersection set,
forces no trailing edge at the final index; a way with no intersection
node at any index past the first yields zero edges. -/
theorem edge_split_cut_count (inter : List NodeId) (way : Way) :
    (splitWay inter way).length =
      ((List.range way.nodes.length).filter
        (fun i => decide (i ≠ 0) &&
          decide (way.nodes.getD i 0 ∈ inter))).length ∧
    ((∀ i, 0 < i → i < way.nodes.length → way.nodes.getD i 0 ∉ inter) →
      splitWay inter way = []) := by
  have hlt := splitWay_range_lt way
  have hsort : ((List.range way.nodes.length).drop 1).Pairwise (· < ·) :=
    (List.pairwise_lt_range way.nodes.length).drop
  have hmain : (splitWay inter way).length =
      (((List.range way.nodes.length).drop 1).filter
        (fun i => decide (way.nodes.getD i 0 ∈ inter))).length := by
    rw [splitWay_eq_go_tail]
    exact splitGo_length way.is_oneway inter way.nodes _ 0 hlt hsort
  have hfilter : ((List.range way.nodes.length).filter
        (fun i => decide (i ≠ 0) && decide (way.nodes.getD i 0 ∈ inter))) =
      (((List.range way.nodes.length).drop 1).filter
        (fun i => decide (way.nodes.getD i 0 ∈ inter))) := by
    rcases hn : way.nodes.length with _ | n
    · rfl
    · rw [List.range_succ_eq_map]
      rw [List.filter_cons_of_neg (by simp)]
      rw [show ((0 :: List.map Nat.succ (List.range n)).drop 1 =
        List.map Nat.succ (List.range n)) from rfl]
      apply List.filter_congr
      intro x hx
      rw [List.mem_map] at hx
      obtain ⟨k, hk, rfl⟩ := hx
      simp
  constructor
  · rw [hmain, hfilter]
  · intro hnone
    have hempty : (((List.range way.nodes.length).drop 1).filter
        (fun i => decide (way.nodes.getD i 0 ∈ inter))) = [] := by
      rw [List.filter_eq_nil_iff]
      intro i hi
      obtain ⟨h0, hlen⟩ := hlt i hi
      simp only [decide_eq_true_eq]
      exact hnone i h0 hlen
    have := hmain
    rw [hempty] at this
    simp only [List.length_nil, List.length_eq_zero] at this
    exact this

/-- Witness for `edge_split_cut_count`: the count identity at a concrete
way and intersection set, and the zero-edge consequence for an empty
intersection set. -/
theorem edge_split_cut_count_witness :
    ((splitWay [3] ⟨7, none, false, [1, 2, 3], ""⟩).length =
      ((List.range ([1, 2, 3] : List NodeId).length).filter
        (fun i => decide (i ≠ 0) &&
          decide (([1, 2, 3] : List NodeId).getD i 0 ∈ [(3 : NodeId)]))).length) ∧
    splitWay [] ⟨7, none, false, [1, 2, 3], ""⟩ = [] :=
  ⟨(edge_split_cut_count [3] ⟨7, none, false, [1, 2, 3], ""⟩).1,
   (edge_split_cut_count [] ⟨7, none, false, [1, 2, 3], ""⟩).2
     (fun i _ _ => List.not_mem_nil _)⟩

/-- C1 counterexample: for the way `[1, 2, 3]` with intersection set
`{3}`, the single emitted edge is `from = 1`, `to = 3`,
`nodes = [1, 2]` (the slice `[initial..node_index]` excludes the cut
node), so `to` is not the last element of `nodes`. -/
theorem edge_endpoint_claim_counterexample :
    splitWay [3] ⟨7, none, false, [1, 2, 3], ""⟩ =
      [{ from' := 1, to' := 3, nodes := [1, 2], is_oneway := false }] ∧
    ¬ (∀ e ∈ splitWay [3] (⟨7, none, false, [1, 2, 3], ""⟩ : Way),
        e.nodes ≠ [] ∧ e.nodes.head? = some e.from' ∧
        e.nodes.getLast? = some e.to') := by
  constructor
  · rfl
  · decide

/-- C1 (amended): every emitted edge has non-empty `nodes` with
`from = nodes[0]`, and spans from the previous cut index `i` to the
current cut index `j` *exclusive*: `nodes` is the slice
`way.nodes[i..j]`, `from` is the node at `i`, and `to` is the node at
the cut index `j` — the way element immediately after the last element
of `nodes`, not `nodes[last]`. -/
theorem edge_shape_correct (inter : List NodeId) (way : Way) (e : Edge)
    (he : e ∈ splitWay inter way) :
    e.nodes ≠ [] ∧ e.nodes.head? = some e.from' ∧
    ∃ i j, i < j ∧ j < way.nodes.length ∧
      e.from' = way.nodes.getD i 0 ∧ e.to' = way.nodes.getD j 0 ∧
      e.nodes = (way.nodes.drop i).take (j - i) := by
  rw [splitWay_eq_go_tail] at he
  have hlt := splitWay_range_lt way
  have hsort : ((List.range way.nodes.length).drop 1).Pairwise (· < ·) :=
    (List.pairwise_lt_range way.nodes.length).drop
  obtain ⟨i, j, hij, hjlen, hf, ht, hnodes, _⟩ :=
    splitGo_shape way.is_oneway inter way.nodes _ 0 hlt hsort e he
  refine ⟨?_, ?_, i, j, hij, hjlen, hf, ht, hnodes⟩
  · intro hnil
    have hempty := splitGo_slice_ne_nil way.nodes i j hij hjlen
    rw [← hnodes, hnil] at hempty
    simp at hempty
  · rw [hnodes, take_head_of_pos (j - i) (by omega), List.head?_drop,
      List.getElem?_eq_getElem (by omega : i < way.nodes.length), hf,
      List.getD_eq_getElem _ _ (by omega : i < way.nodes.length)]

/-- Witness for `edge_shape_correct` at the way `[1, 2, 3]` with
intersection set `{3}`. -/
theorem edge_shape_correct_witness :
    ((⟨1, 3, [1, 2], false⟩ : Edge) ∈
        splitWay [3] (⟨7, none, false, [1, 2, 3], ""⟩ : Way)) ∧
    ((⟨1, 3, [1, 2], false⟩ : Edge).nodes ≠ [] ∧
     (⟨1, 3, [1, 2], false⟩ : Edge).nodes.head? =
       some (⟨1, 3, [1, 2], false⟩ : Edge).from' ∧
     ∃ i j, i < j ∧
       j < (⟨7, none, false, [1, 2, 3], ""⟩ : Way).nodes.length ∧
       (⟨1, 3, [1, 2], false⟩ : Edge).from' =
         (⟨7, none, false, [1, 2, 3], ""⟩ : Way).nodes.getD i 0 ∧
       (⟨1, 3, [1, 2], false⟩ : Edge).to' =
         (⟨7, none, false, [1, 2, 3], ""⟩ : Way).nodes.getD j 0 ∧
       (⟨1, 3, [1, 2], false⟩ : Edge).nodes =
         ((⟨7, none, false, [1, 2, 3], ""⟩ : Way).nodes.drop i).take (j - i)) :=
  ⟨by decide,
   edge_shape_correct [3] ⟨7, none, false, [1, 2, 3], ""⟩
     ⟨1, 3, [1, 2], false⟩ (by decide)⟩

/-- Outcome of the per-edge tile-assignment closure in `read_osm_pbf`:
`panicked` models an `unwrap` of `None` (process abort), `skipped` the
logged-and-dropped quadkey error, `assigned` a successful insert under
the computed quadkey. -/
inductive TileAssignResult where
  | panicked
  | skipped (err : String)
  | assigned (quadkey : Quadkey)
  deriving DecidableEq, Repr

/-- `HashMap::get` on the node table, as association-list lookup. -/
def nodeTableGet (table : List (NodeId × Node)) (node_id : NodeId) :
    Option Node :=
  (table.find? (fun p => p.1 == node_id)).map (fun p => p.2)

/-- The `for_each` body assigning one edge to a tile
(`osm_parser.rs` lines 246-265): `edge.nodes.first().unwrap()` and
`node_table.get(node_id).unwrap()` abort on `None`; a
`lat_lon_to_quadkey` error is logged and the edge skipped; otherwise
the edge is inserted under the computed quadkey.  The quadkey function
(called at zoom 7 in the source) is a parameter, since its
floating-point interior is not embedded. -/
def assignEdgeToTile (latLonToQuadkey : ℚ → ℚ → Except String Quadkey)
    (node_table : List (NodeId × Node)) (edge : Edge) : TileAssignResult :=
  match edge.nodes.head? with
  | none => TileAssignResult.panicked
  | some node_id =>
    match nodeTableGet node_table node_id with
    | none => TileAssignResult.panicked
    | some node =>
      match latLonToQuadkey node.loc.lat node.loc.lon with
      | Except.ok s => TileAssignResult.assigned s
      | Except.error err => TileAssignResult.skipped err

/-- C2 counterexample: with an empty node table, the edge `[1, 2]` hits
`node_table.get(..).unwrap()`; the run aborts, the edge is not
logged-and-skipped. -/
theorem missing_node_skip_counterexample :
    assignEdgeToTile (fun _ _ => Except.ok []) []
        ⟨1, 2, [1, 2], false⟩ = TileAssignResult.panicked ∧
    ¬ ∃ err, assignEdgeToTile (fun _ _ => Except.ok []) []
        ⟨1, 2, [1, 2], false⟩ = TileAssignResult.skipped err := by
  constructor
  · rfl
  · rintro ⟨err, herr⟩
    simp [assignEdgeToTile, nodeTableGet] at herr

/-- C2 (amended): when an edge references a first node id absent from
the node table, the pipeline does not log-and-skip the edge: the
`unwrap` panics, aborting the run (only a quadkey range error is logged
and skipped). -/
theorem missing_node_panics (qkf : ℚ → ℚ → Except String Quadkey)
    (table : List (NodeId × Node)) (edge : Edge) (n : NodeId)
    (hhead : edge.nodes.head? = some n)
    (hmiss : nodeTableGet table n = none) :
    assignEdgeToTile qkf table edge = TileAssignResult.panicked := by
  simp [assignEdgeToTile, hhead, hmiss]

/-- Witness for `missing_node_panics`: an edge starting at node 1 with
an empty node table. -/
theorem missing_node_panics_witness :
    ((⟨1, 2, [1, 2], false⟩ : Edge).nodes.head? = some 1 ∧
     nodeTableGet [] 1 = none) ∧
    assignEdgeToTile (fun _ _ => Except.ok []) [] ⟨1, 2, [1, 2], false⟩ =
      TileAssignResult.panicked :=
  ⟨⟨rfl, rfl⟩,
   missing_node_panics (fun _ _ => Except.ok []) [] ⟨1, 2, [1, 2], false⟩ 1
     rfl rfl⟩

/-- `ParallelQuadkeyMap` (`utils.rs` lines 77-129): buckets keyed by
index, each holding a map from `Quadkey` to `Tile`.  The mutexes are
immaterial to this sequential model of an insert sequence. -/
structure ParallelQuadkeyMap where
  buckets : List (Nat × List (Quadkey × Tile))

/-- `ParallelQuadkeyMap::NUM_BUCKETS`. -/
def NUM_BUCKETS : Nat := 100

/-- `ParallelQuadkeyMap::new` (`utils.rs` lines 85-91). -/
def ParallelQuadkeyMap.new : ParallelQuadkeyMap :=
  ⟨(List.range NUM_BUCKETS).map (fun bucket_idx => (bucket_idx, []))⟩

/-- `table.entry(quadkey).or_insert(Tile::default())` followed by
`tile.edges.push(edge)`, on one bucket's keyed map. -/
def bucketInsert (quadkey : Quadkey) (edge : Edge) :
    List (Quadkey × Tile) → List (Quadkey × Tile)
  | [] => [(quadkey, ⟨[edge]⟩)]
  | (k, t) :: rest =>
    if k = quadkey then (k, ⟨t.edges ++ [edge]⟩) :: rest
    else (k, t) :: bucketInsert quadkey edge rest

/-- `ParallelQuadkeyMap::insert` (`utils.rs` lines 92-110).  The
`DefaultHasher` is a function parameter: the spec only requires the
hash to be stable within a run. -/
def ParallelQuadkeyMap.insert (hash : Quadkey → Nat)
    (m : ParallelQuadkeyMap) (quadkey : Quadkey) (edge : Edge) :
    ParallelQuadkeyMap :=
  let bucket_idx := hash quadkey % NUM_BUCKETS
  ⟨m.buckets.map (fun b =>
    if b.1 = bucket_idx then (b.1, bucketInsert quadkey edge b.2) else b)⟩

/-- `ParallelQuadkeyMap::collect` (`utils.rs` lines 114-128). -/
def ParallelQuadkeyMap.collect (m : ParallelQuadkeyMap) :
    List (Quadkey × Tile) :=
  m.buckets.flatMap (fun b => b.2)

/-- The keys of one bucket's map. -/
def bucketKeys (b : List (Quadkey × Tile)) : List Quadkey :=
  b.map (fun p => p.1)

/-- All keys across all buckets. -/
def flatKeys (bs : List (Nat × List (Quadkey × Tile))) : List Quadkey :=
  bs.flatMap (fun b => bucketKeys b.2)

/-- Total number of edges across a list of `(Quadkey, Tile)` pairs. -/
def tileEdgeTotal (l : List (Quadkey × Tile)) : Nat :=
  (l.map (fun p => p.2.edges.length)).sum

/-- The edges stored under one quadkey across a list of
`(Quadkey, Tile)` pairs. -/
def tileEdgesUnder (l : List (Quadkey × Tile)) (k : Quadkey) : List Edge :=
  (l.filter (fun p => decide (p.1 = k))).flatMap (fun p => p.2.edges)

theorem tileEdgeTotal_append (l1 l2 : List (Quadkey × Tile)) :
    tileEdgeTotal (l1 ++ l2) = tileEdgeTotal l1 + tileEdgeTotal l2 := by
  simp [tileEdgeTotal]

theorem tileEdgesUnder_append (l1 l2 : List (Quadkey × Tile)) (k : Quadkey) :
    tileEdgesUnder (l1 ++ l2) k =
      tileEdgesUnder l1 k ++ tileEdgesUnder l2 k := by
  simp [tileEdgesUnder]

theorem bucketKeys_bucketInsert (qk : Quadkey) (e : Edge)
    (b : List (Quadkey × Tile)) :
    bucketKeys (bucketInsert qk e b) =
      if qk ∈ bucketKeys b then bucketKeys b else bucketKeys b ++ [qk] := by
  induction b with
  | nil => simp [bucketInsert, bucketKeys]
  | cons p rest ih =>
    rcases p with ⟨k, t⟩
    by_cases hk : k = qk
    · subst hk
      simp [bucketInsert, bucketKeys, List.mem_cons]
    · unfold bucketInsert
      rw [if_neg hk]
      have hkeys : bucketKeys ((k, t) :: bucketInsert qk e rest) =
          k :: bucketKeys (bucketInsert qk e rest) := rfl
      have hkeys2 : bucketKeys ((k, t) :: rest) = k :: bucketKeys rest := rfl
      have hne : ¬qk = k := fun h => hk h.symm
      rw [hkeys, ih, hkeys2]
      by_cases hmem : qk ∈ bucketKeys rest
      · rw [if_pos hmem, if_pos (List.mem_cons_of_mem k hmem)]
      · have hnotin : ¬qk ∈ k :: bucketKeys rest := by
          rw [List.mem_cons]
          rintro (h | h)
          · exact hne h
          · exact hmem h
        rw [if_neg hmem, if_neg hnotin]
        rfl

theorem tileEdgeTotal_bucketInsert (qk : Quadkey) (e : Edge)
    (b : List (Quadkey × Tile)) :
    tileEdgeTotal (bucketInsert qk e b) = tileEdgeTotal b + 1 := by
  induction b with
  | nil => simp [bucketInsert, tileEdgeTotal]
  | cons p rest ih =>
    rcases p with ⟨k, t⟩
    by_cases hk : k = qk
    · subst hk
      simp [bucketInsert, tileEdgeTotal]
      omega
    · unfold bucketInsert
      rw [if_neg hk]
      have h1 : tileEdgeTotal ((k, t) :: bucketInsert qk e rest) =
          t.edges.length + tileEdgeTotal (bucketInsert qk e rest) := by
        simp [tileEdgeTotal]
      have h2 : tileEdgeTotal ((k, t) :: rest) =
          t.edges.length + tileEdgeTotal rest := by
        simp [tileEdgeTotal]
      rw [h1, h2, ih]
      omega

theorem bucketInsert_key_mem (qk : Quadkey) (e : Edge)
    (b : List (Quadkey × Tile)) (p : Quadkey × Tile)
    (hp : p ∈ bucketInsert qk e b) :
    p.1 = qk ∨ p.1 ∈ bucketKeys b := by
  induction b with
  | nil =>
    simp [bucketInsert] at hp
    left
    rw [hp]
  | cons q rest ih =>
    rcases q with ⟨k, t⟩
    by_cases hk : k = qk
    · subst hk
      have hstep : bucketInsert k e ((k, t) :: rest) =
          (k, ⟨t.edges ++ [e]⟩) :: rest := by
        unfold bucketInsert
        rw [if_pos rfl]
      rw [hstep] at hp
      rcases List.mem_cons.mp hp with hp | hp
      · left
        rw [hp]
      · right
        exact List.mem_cons_of_mem k (List.mem_map_of_mem (fun x => x.1) hp)
    · unfold bucketInsert at hp
      rw [if_neg hk] at hp
      rcases List.mem_cons.mp hp with hp | hp
      · right
        rw [hp]
        exact List.mem_cons_self k (rest.map (fun x => x.1))
      · rcases ih hp with h | h
        · exact Or.inl h
        · right
          exact List.mem_cons_of_mem k h

theorem tileEdgesUnder_of_not_mem (b : List (Quadkey × Tile)) (k : Quadkey)
    (hk : k ∉ bucketKeys b) : tileEdgesUnder b k = [] := by
  unfold tileEdgesUnder
  have hfil : b.filter (fun p => decide (p.1 = k)) = [] := by
    rw [List.filter_eq_nil_iff]
    intro a ha
    simp only [decide_eq_true_eq]
    intro haeq
    exact hk (haeq ▸ List.mem_map_of_mem (fun x => x.1) ha)
  rw [hfil]
  rfl

theorem tileEdgesUnder_cons (k0 : Quadkey) (t0 : Tile)
    (rest : List (Quadkey × Tile)) (k : Quadkey) :
    tileEdgesUnder ((k0, t0) :: rest) k =
      (if k0 = k then t0.edges else []) ++ tileEdgesUnder rest k := by
  by_cases h : k0 = k
  · unfold tileEdgesUnder
    rw [List.filter_cons_of_pos (by simp [h]), if_pos h]
    rfl
  · unfold tileEdgesUnder
    rw [List.filter_cons_of_neg (by simp [h]), if_neg h]
    rfl

theorem tileEdgesUnder_bucketInsert (qk : Quadkey) (e : Edge)
    (b : List (Quadkey × Tile)) (hnodup : (bucketKeys b).Nodup) (k : Quadkey) :
    tileEdgesUnder (bucketInsert qk e b) k =
      tileEdgesUnder b k ++ (if k = qk then [e] else []) := by
  induction b with
  | nil =>
    show tileEdgesUnder [(qk, ⟨[e]⟩)] k = tileEdgesUnder [] k ++ _
    rw [tileEdgesUnder_cons]
    by_cases hk : k = qk
    · rw [if_pos hk.symm, if_pos hk]
      rfl
    · rw [if_neg (fun h => hk h.symm), if_neg hk]
      rfl
  | cons p rest ih =>
    rcases p with ⟨k0, t0⟩
    rw [show bucketKeys ((k0, t0) :: rest) = k0 :: bucketKeys rest from rfl,
      List.nodup_cons] at hnodup
    obtain ⟨hk0, hrest⟩ := hnodup
    by_cases hk : k0 = qk
    · subst hk
      have hstep : bucketInsert k0 e ((k0, t0) :: rest) =
          (k0, ⟨t0.edges ++ [e]⟩) :: rest := by
        unfold bucketInsert
        rw [if_pos rfl]
      rw [hstep, tileEdgesUnder_cons, tileEdgesUnder_cons]
      by_cases hkk : k0 = k
      · rw [if_pos hkk, if_pos hkk, if_pos (hkk ▸ rfl)]
        rw [tileEdgesUnder_of_not_mem rest k (by rw [← hkk]; exact hk0)]
        simp
      · rw [if_neg hkk, if_neg hkk, if_neg (fun h => hkk h.symm)]
        simp
    · have hstep : bucketInsert qk e ((k0, t0) :: rest) =
          (k0, t0) :: bucketInsert qk e rest := by
        show (if k0 = qk then (k0, ⟨t0.edges ++ [e]⟩) :: rest
          else (k0, t0) :: bucketInsert qk e rest) =
          (k0, t0) :: bucketInsert qk e rest
        rw [if_neg hk]
      rw [hstep, tileEdgesUnder_cons, tileEdgesUnder_cons, ih hrest,
        List.append_assoc]

theorem bucketKeys_bucketInsert_mem (qk : Quadkey) (e : Edge)
    (b : List (Quadkey × Tile)) (x : Quadkey)
    (hx : x ∈ bucketKeys (bucketInsert qk e b)) :
    x = qk ∨ x ∈ bucketKeys b := by
  rw [bucketKeys_bucketInsert] at hx
  by_cases hm : qk ∈ bucketKeys b
  · rw [if_pos hm] at hx
    right
    exact hx
  · rw [if_neg hm] at hx
    rcases List.mem_append.mp hx with h | h
    · right
      exact h
    · left
      simpa using h

theorem bucketKeys_flatMap (bs : List (Nat × List (Quadkey × Tile))) :
    bucketKeys (bs.flatMap (fun b => b.2)) = flatKeys bs := by
  simp [bucketKeys, flatKeys, List.map_flatMap]

theorem mapInsert_id (qk : Quadkey) (e : Edge) (hh : Nat)
    (bs : List (Nat × List (Quadkey × Tile)))
    (hno : ∀ b ∈ bs, b.1 ≠ hh) :
    bs.map (fun b => if b.1 = hh then (b.1, bucketInsert qk e b.2) else b) =
      bs := by
  induction bs with
  | nil => rfl
  | cons b rest ih =>
    rw [List.map_cons, if_neg (hno b (List.mem_cons_self b rest)),
      ih (fun x hx => hno x (List.mem_cons_of_mem b hx))]

theorem mapInsert_fst (qk : Quadkey) (e : Edge) (hh : Nat)
    (bs : List (Nat × List (Quadkey × Tile))) :
    (bs.map (fun b => if b.1 = hh then (b.1, bucketInsert qk e b.2) else b)).map
        (fun b => b.1) = bs.map (fun b => b.1) := by
  induction bs with
  | nil => rfl
  | cons b rest ih =>
    rw [List.map_cons, List.map_cons, List.map_cons, ih]
    by_cases hb : b.1 = hh
    · rw [if_pos hb]
    · rw [if_neg hb]

theorem mapInsert_total (qk : Quadkey) (e : Edge) (hh : Nat)
    (bs : List (Nat × List (Quadkey × Tile)))
    (hcount : (bs.map (fun b => b.1)).count hh = 1) :
    tileEdgeTotal (((bs.map (fun b => if b.1 = hh then
        (b.1, bucketInsert qk e b.2) else b)).flatMap (fun b => b.2))) =
      tileEdgeTotal (bs.flatMap (fun b => b.2)) + 1 := by
  induction bs with
  | nil => simp at hcount
  | cons b rest ih =>
    rw [List.map_cons] at hcount ⊢
    rw [List.count_cons] at hcount
    rw [List.flatMap_cons, List.flatMap_cons, tileEdgeTotal_append,
      tileEdgeTotal_append]
    by_cases hb : b.1 = hh
    · rw [if_pos hb]
      have hzero : (rest.map (fun b => b.1)).count hh = 0 := by
        rw [hb] at hcount
        simp at hcount
        exact hcount
      have hno : ∀ b' ∈ rest, b'.1 ≠ hh := by
        intro b' hb' heq
        rw [List.count_eq_zero] at hzero
        exact hzero (heq ▸ List.mem_map_of_mem (fun x => x.1) hb')
      rw [mapInsert_id qk e hh rest hno]
      have : tileEdgeTotal (bucketInsert qk e b.2) = tileEdgeTotal b.2 + 1 :=
        tileEdgeTotal_bucketInsert qk e b.2
      rw [show ((b.1, bucketInsert qk e b.2)).2 = bucketInsert qk e b.2
        from rfl, this]
      omega
    · rw [if_neg hb]
      have hone : (rest.map (fun b => b.1)).count hh = 1 := by
        have : (b.1 == hh) = false := by
          simp only [beq_eq_false_iff_ne, ne_eq]
          exact hb
        rw [this] at hcount
        simpa using hcount
      rw [ih hone]
      omega

theorem mapInsert_flatKeys_mem (qk : Quadkey) (e : Edge) (hh : Nat)
    (bs : List (Nat × List (Quadkey × Tile))) (x : Quadkey)
    (hx : x ∈ flatKeys (bs.map (fun b => if b.1 = hh then
      (b.1, bucketInsert qk e b.2) else b))) :
    x = qk ∨ x ∈ flatKeys bs := by
  unfold flatKeys at hx ⊢
  rw [List.mem_flatMap] at hx
  obtain ⟨b, hb, hxb⟩ := hx
  rw [List.mem_map] at hb
  obtain ⟨b0, hb0, rfl⟩ := hb
  by_cases h0 : b0.1 = hh
  · rw [if_pos h0] at hxb
    rcases bucketKeys_bucketInsert_mem qk e b0.2 x hxb with h | h
    · exact Or.inl h
    · right
      rw [List.mem_flatMap]
      exact ⟨b0, hb0, h⟩
  · rw [if_neg h0] at hxb
    right
    rw [List.mem_flatMap]
    exact ⟨b0, hb0, hxb⟩

theorem mapInsert_coherent (hash : Quadkey → Nat) (qk : Quadkey) (e : Edge)
    (bs : List (Nat × List (Quadkey × Tile)))
    (hcoh : ∀ b ∈ bs, ∀ p ∈ b.2, hash p.1 % NUM_BUCKETS = b.1) :
    ∀ b ∈ bs.map (fun b => if b.1 = hash qk % NUM_BUCKETS then
        (b.1, bucketInsert qk e b.2) else b),
      ∀ p ∈ b.2, hash p.1 % NUM_BUCKETS = b.1 := by
  intro b hb p hp
  rw [List.mem_map] at hb
  obtain ⟨b0, hb0, rfl⟩ := hb
  by_cases h0 : b0.1 = hash qk % NUM_BUCKETS
  · rw [if_pos h0] at hp ⊢
    rcases bucketInsert_key_mem qk e b0.2 p hp with hkey | hkey
    · rw [hkey]
      exact h0.symm
    · obtain ⟨p', hp', hfst⟩ := List.mem_map.mp hkey
      have hc := hcoh b0 hb0 p' hp'
      rw [hfst] at hc
      exact hc
  · rw [if_neg h0] at hp ⊢
    exact hcoh b0 hb0 p hp

theorem mapInsert_under (hash : Quadkey → Nat) (qk : Quadkey) (e : Edge)
    (bs : List (Nat × List (Quadkey × Tile)))
    (hcount : (bs.map (fun b => b.1)).count (hash qk % NUM_BUCKETS) = 1)
    (hcoh : ∀ b ∈ bs, ∀ p ∈ b.2, hash p.1 % NUM_BUCKETS = b.1)
    (hnodup : (flatKeys bs).Nodup) (k : Quadkey) :
    tileEdgesUnder ((bs.map (fun b => if b.1 = hash qk % NUM_BUCKETS then
        (b.1, bucketInsert qk e b.2) else b)).flatMap (fun b => b.2)) k =
      tileEdgesUnder (bs.flatMap (fun b => b.2)) k ++
        (if k = qk then [e] else []) := by
  induction bs with
  | nil => simp at hcount
  | cons b rest ih =>
    rw [List.map_cons, List.count_cons] at hcount
    have hflat : flatKeys (b :: rest) = bucketKeys b.2 ++ flatKeys rest := rfl
    rw [hflat, List.nodup_append] at hnodup
    obtain ⟨hnodA, hnodB, hdisj⟩ := hnodup
    have hcohrest : ∀ b' ∈ rest, ∀ p ∈ b'.2, hash p.1 % NUM_BUCKETS = b'.1 :=
      fun b' hb' => hcoh b' (List.mem_cons_of_mem b hb')
    rw [List.map_cons, List.flatMap_cons, List.flatMap_cons,
      tileEdgesUnder_append, tileEdgesUnder_append]
    by_cases hb : b.1 = hash qk % NUM_BUCKETS
    · rw [if_pos hb]
      have hzero :
          (rest.map (fun b => b.1)).count (hash qk % NUM_BUCKETS) = 0 := by
        rw [hb] at hcount
        simp at hcount
        exact hcount
      have hno : ∀ b' ∈ rest, b'.1 ≠ hash qk % NUM_BUCKETS := by
        intro b' hb' heq
        rw [List.count_eq_zero] at hzero
        exact hzero (heq ▸ List.mem_map_of_mem (fun x => x.1) hb')
      rw [mapInsert_id qk e _ rest hno]
      rw [show ((b.1, bucketInsert qk e b.2)).2 = bucketInsert qk e b.2
        from rfl]
      rw [tileEdgesUnder_bucketInsert qk e b.2 hnodA k]
      by_cases hkq : k = qk
      · subst hkq
        have hknot : k ∉ flatKeys rest := by
          intro hkin
          unfold flatKeys at hkin
          rw [List.mem_flatMap] at hkin
          obtain ⟨b', hb', hkb'⟩ := hkin
          obtain ⟨p', hp', hfst⟩ := List.mem_map.mp hkb'
          have hc := hcohrest b' hb' p' hp'
          rw [hfst] at hc
          exact hno b' hb' hc.symm
        have hrestnil : tileEdgesUnder (rest.flatMap (fun b => b.2)) k = [] := by
          apply tileEdgesUnder_of_not_mem
          rw [bucketKeys_flatMap]
          exact hknot
        rw [hrestnil]
        simp
      · rw [if_neg hkq]
        simp
    · rw [if_neg hb]
      have hone :
          (rest.map (fun b => b.1)).count (hash qk % NUM_BUCKETS) = 1 := by
        have hfalse : (b.1 == hash qk % NUM_BUCKETS) = false := by
          simp only [beq_eq_false_iff_ne, ne_eq]
          exact hb
        rw [hfalse] at hcount
        simpa using hcount
      rw [ih hone hcohrest hnodB, List.append_assoc]

theorem mapInsert_nodup (hash : Quadkey → Nat) (qk : Quadkey) (e : Edge)
    (bs : List (Nat × List (Quadkey × Tile)))
    (hcount : (bs.map (fun b => b.1)).count (hash qk % NUM_BUCKETS) = 1)
    (hcoh : ∀ b ∈ bs, ∀ p ∈ b.2, hash p.1 % NUM_BUCKETS = b.1)
    (hnodup : (flatKeys bs).Nodup) :
    (flatKeys (bs.map (fun b => if b.1 = hash qk % NUM_BUCKETS then
        (b.1, bucketInsert qk e b.2) else b))).Nodup := by
  induction bs with
  | nil => simp at hcount
  | cons b rest ih =>
    rw [List.map_cons, List.count_cons] at hcount
    have hflat : flatKeys (b :: rest) = bucketKeys b.2 ++ flatKeys rest := rfl
    rw [hflat, List.nodup_append] at hnodup
    obtain ⟨hnodA, hnodB, hdisj⟩ := hnodup
    have hcohrest : ∀ b' ∈ rest, ∀ p ∈ b'.2, hash p.1 % NUM_BUCKETS = b'.1 :=
      fun b' hb' => hcoh b' (List.mem_cons_of_mem b hb')
    rw [List.map_cons]
    have hflat2 : ∀ (hd : Nat × List (Quadkey × Tile))
        (tl : List (Nat × List (Quadkey × Tile))),
        flatKeys (hd :: tl) = bucketKeys hd.2 ++ flatKeys tl := fun _ _ => rfl
    rw [hflat2]
    by_cases hb : b.1 = hash qk % NUM_BUCKETS
    · rw [if_pos hb]
      have hzero :
          (rest.map (fun b => b.1)).count (hash qk % NUM_BUCKETS) = 0 := by
        rw [hb] at hcount
        simp at hcount
        exact hcount
      have hno : ∀ b' ∈ rest, b'.1 ≠ hash qk % NUM_BUCKETS := by
        intro b' hb' heq
        rw [List.count_eq_zero] at hzero
        exact hzero (heq ▸ List.mem_map_of_mem (fun x => x.1) hb')
      rw [mapInsert_id qk e _ rest hno]
      rw [show ((b.1, bucketInsert qk e b.2)).2 = bucketInsert qk e b.2
        from rfl]
      rw [bucketKeys_bucketInsert]
      by_cases hm : qk ∈ bucketKeys b.2
      · rw [if_pos hm, List.nodup_append]
        exact ⟨hnodA, hnodB, hdisj⟩
      · rw [if_neg hm]
        have hqknot : qk ∉ flatKeys rest := by
          intro hkin
          unfold flatKeys at hkin
          rw [List.mem_flatMap] at hkin
          obtain ⟨b', hb', hkb'⟩ := hkin
          obtain ⟨p', hp', hfst⟩ := List.mem_map.mp hkb'
          have hc := hcohrest b' hb' p' hp'
          rw [hfst] at hc
          exact hno b' hb' hc.symm
        rw [List.append_assoc,
          show [qk] ++ flatKeys rest = qk :: flatKeys rest from rfl,
          List.nodup_middle, List.nodup_cons]
        constructor
        · rw [List.mem_append]
          rintro (h | h)
          · exact hm h
          · exact hqknot h
        · rw [List.nodup_append]
          exact ⟨hnodA, hnodB, hdisj⟩
    · rw [if_neg hb]
      have hone :
          (rest.map (fun b => b.1)).count (hash qk % NUM_BUCKETS) = 1 := by
        have hfalse : (b.1 == hash qk % NUM_BUCKETS) = false := by
          simp only [beq_eq_false_iff_ne, ne_eq]
          exact hb
        rw [hfalse] at hcount
        simpa using hcount
      have ihres := ih hone hcohrest hnodB
      rw [List.nodup_append]
      refine ⟨hnodA, ihres, ?_⟩
      intro x hxA hxB
      rcases mapInsert_flatKeys_mem qk e _ rest x hxB with rfl | hxR
      · obtain ⟨p', hp', hfst⟩ := List.mem_map.mp hxA
        have hc := hcoh b (List.mem_cons_self b rest) p' hp'
        rw [hfst] at hc
        exact hb hc.symm
      · exact hdisj hxA hxR

/-- Run-time invariant of the sharded map: the bucket indices are
exactly `0..NUM_BUCKETS` (as created by `new`), every stored key
hashes to its bucket's index, and no key is stored twice. -/
structure PQMInv (hash : Quadkey → Nat) (m : ParallelQuadkeyMap) : Prop where
  fst_eq : m.buckets.map (fun b => b.1) = List.range NUM_BUCKETS
  coherent : ∀ b ∈ m.buckets, ∀ p ∈ b.2, hash p.1 % NUM_BUCKETS = b.1
  nodupKeys : (flatKeys m.buckets).Nodup

theorem PQMInv_new (hash : Quadkey → Nat) :
    PQMInv hash ParallelQuadkeyMap.new := by
  refine ⟨?_, ?_, ?_⟩
  · simp only [ParallelQuadkeyMap.new, List.map_map]
    exact List.map_id (List.range NUM_BUCKETS)
  · intro b hb p hp
    simp only [ParallelQuadkeyMap.new, List.mem_map] at hb
    obtain ⟨i, hi, rfl⟩ := hb
    simp at hp
  · have hempty : flatKeys ParallelQuadkeyMap.new.buckets = [] := by
      simp [ParallelQuadkeyMap.new, flatKeys, bucketKeys]
    rw [hempty]
    exact List.nodup_nil

theorem PQMInv_count (hash : Quadkey → Nat) (m : ParallelQuadkeyMap)
    (hInv : PQMInv hash m) (qk : Quadkey) :
    (m.buckets.map (fun b => b.1)).count (hash qk % NUM_BUCKETS) = 1 := by
  rw [hInv.fst_eq]
  have hmem : hash qk % NUM_BUCKETS ∈ List.range NUM_BUCKETS := by
    rw [List.mem_range]
    exact Nat.mod_lt _ (by norm_num [NUM_BUCKETS])
  exact List.count_eq_one_of_mem (List.nodup_range NUM_BUCKETS) hmem

theorem insert_spec (hash : Quadkey → Nat) (m : ParallelQuadkeyMap)
    (hInv : PQMInv hash m) (qk : Quadkey) (e : Edge) :
    PQMInv hash (m.insert hash qk e) ∧
    tileEdgeTotal (m.insert hash qk e).collect =
      tileEdgeTotal m.collect + 1 ∧
    ∀ k, tileEdgesUnder (m.insert hash qk e).collect k =
      tileEdgesUnder m.collect k ++ (if k = qk then [e] else []) := by
  have hbuckets : (m.insert hash qk e).buckets =
      m.buckets.map (fun b => if b.1 = hash qk % NUM_BUCKETS then
        (b.1, bucketInsert qk e b.2) else b) := rfl
  have hcount := PQMInv_count hash m hInv qk
  refine ⟨⟨?_, ?_, ?_⟩, ?_, ?_⟩
  · rw [hbuckets, mapInsert_fst, hInv.fst_eq]
  · rw [hbuckets]
    exact mapInsert_coherent hash qk e m.buckets hInv.coherent
  · rw [hbuckets]
    exact mapInsert_nodup hash qk e m.buckets hcount hInv.coherent
      hInv.nodupKeys
  · show tileEdgeTotal
        ((m.insert hash qk e).buckets.flatMap (fun b => b.2)) = _
    rw [hbuckets]
    exact mapInsert_total qk e _ m.buckets hcount
  · intro k
    show tileEdgesUnder
        ((m.insert hash qk e).buckets.flatMap (fun b => b.2)) k = _
    rw [hbuckets]
    exact mapInsert_under hash qk e m.buckets hcount hInv.coherent
      hInv.nodupKeys k

theorem pqm_fold_spec (hash : Quadkey → Nat)
    (inserts : List (Quadkey × Edge)) (m : ParallelQuadkeyMap)
    (hInv : PQMInv hash m) :
    PQMInv hash (inserts.foldl (fun acc p => acc.insert hash p.1 p.2) m) ∧
    tileEdgeTotal
        ((inserts.foldl (fun acc p => acc.insert hash p.1 p.2) m).collect) =
      tileEdgeTotal m.collect + inserts.length ∧
    ∀ k, tileEdgesUnder
        ((inserts.foldl (fun acc p => acc.insert hash p.1 p.2) m).collect) k =
      tileEdgesUnder m.collect k ++
        ((inserts.filter (fun q => decide (q.1 = k))).map (fun q => q.2)) := by
  induction inserts generalizing m with
  | nil =>
    refine ⟨hInv, by simp, ?_⟩
    intro k
    simp
  | cons qe rest ih =>
    rcases qe with ⟨qk, e⟩
    obtain ⟨hI, hT, hU⟩ := insert_spec hash m hInv qk e
    obtain ⟨ihI, ihT, ihU⟩ := ih (m.insert hash qk e) hI
    rw [List.foldl_cons]
    refine ⟨ihI, ?_, ?_⟩
    · rw [ihT, hT, List.length_cons]
      omega
    · intro k
      rw [ihU k, hU k, List.append_assoc]
      congr 1
      by_cases hkq : k = qk
      · subst hkq
        rw [if_pos rfl, List.filter_cons_of_pos (by simp)]
        rfl
      · rw [if_neg hkq,
          List.filter_cons_of_neg (by simp; exact fun h => hkq h.symm)]
        rfl

theorem filter_eq_singleton_of_nodup (l : List (Quadkey × Tile))
    (hnodup : (l.map (fun p => p.1)).Nodup) (p : Quadkey × Tile)
    (hp : p ∈ l) :
    l.filter (fun q => decide (q.1 = p.1)) = [p] := by
  induction l with
  | nil => simp at hp
  | cons a rest ih =>
    rw [List.map_cons, List.nodup_cons] at hnodup
    obtain ⟨ha, hrest⟩ := hnodup
    rcases List.mem_cons.mp hp with rfl | hp'
    · rw [List.filter_cons_of_pos (by simp)]
      have hnil : rest.filter (fun q => decide (q.1 = p.1)) = [] := by
        rw [List.filter_eq_nil_iff]
        intro b hb
        simp only [decide_eq_true_eq]
        intro hbeq
        exact ha (hbeq ▸ List.mem_map_of_mem (fun x => x.1) hb)
      rw [hnil]
    · have hne : ¬(a.1 = p.1) := by
        intro heq
        exact ha (heq ▸ List.mem_map_of_mem (fun x => x.1) hp')
      rw [List.filter_cons_of_neg (by simpa using hne)]
      exact ih hrest hp'

/-- C9: for every sequence of N `insert(quadkey, edge)` calls on a fresh
`ParallelQuadkeyMap`, `collect()` yields exactly N edges in total across
all returned `(Quadkey, Tile)` pairs, each quadkey appears at most once
in the result, and each tile holds exactly the edges that were inserted
under its quadkey. -/
theorem pqm_insert_collect_correct (hash : Quadkey → Nat)
    (inserts : List (Quadkey × Edge)) :
    tileEdgeTotal ((inserts.foldl (fun acc p => acc.insert hash p.1 p.2)
        ParallelQuadkeyMap.new).collect) = inserts.length ∧
    (((inserts.foldl (fun acc p => acc.insert hash p.1 p.2)
        ParallelQuadkeyMap.new).collect).map (fun p => p.1)).Nodup ∧
    ∀ p ∈ (inserts.foldl (fun acc p => acc.insert hash p.1 p.2)
        ParallelQuadkeyMap.new).collect,
      p.2.edges =
        (inserts.filter (fun q => decide (q.1 = p.1))).map (fun q => q.2) := by
  obtain ⟨hI, hT, hU⟩ :=
    pqm_fold_spec hash inserts ParallelQuadkeyMap.new (PQMInv_new hash)
  have hnew : ParallelQuadkeyMap.new.collect = [] := by
    simp [ParallelQuadkeyMap.new, ParallelQuadkeyMap.collect]
  have hnodup : (((inserts.foldl (fun acc p => acc.insert hash p.1 p.2)
      ParallelQuadkeyMap.new).collect).map (fun p => p.1)).Nodup := by
    show (bucketKeys ((inserts.foldl (fun acc p => acc.insert hash p.1 p.2)
      ParallelQuadkeyMap.new).buckets.flatMap (fun b => b.2))).Nodup
    rw [bucketKeys_flatMap]
    exact hI.nodupKeys
  refine ⟨?_, hnodup, ?_⟩
  · rw [hT, hnew]
    simp [tileEdgeTotal]
  · intro p hp
    have hunder := hU p.1
    rw [hnew] at hunder
    have hz : tileEdgesUnder ([] : List (Quadkey × Tile)) p.1 = [] := rfl
    rw [hz, List.nil_append] at hunder
    have hsingle : tileEdgesUnder ((inserts.foldl
        (fun acc p => acc.insert hash p.1 p.2)
        ParallelQuadkeyMap.new).collect) p.1 = p.2.edges := by
      unfold tileEdgesUnder
      rw [filter_eq_singleton_of_nodup _ hnodup p hp]
      simp
    rw [← hsingle, hunder]
